import Mathlib

/-!
# Verification of the beat-sync audio structural-analysis pipeline

Shallow embedding of the audio analysis core:
* `EnergyAnalyzer` — RMS energy envelope, range averaging, change detection
  (src/src/services/EnergyAnalyzer.ts);
* `SectionAnalyzer` — section segmentation / classification / merging
  (src/unnamed/part_001, a.k.a. SectionAnalyzer.ts);
* `DrumAnalyzer` — FFT magnitude spectrum, band energies, onset detection
  (the DrumAnalyzer portion of src/src/services/EnergyAnalyzer.ts);
* `BeatWorker` — tempo / bar derivation and beat-strength windows
  (src/unnamed/part_002, the beat-detection web worker).

Numbers that the JavaScript source manipulates as IEEE doubles /
`Float32Array` entries are modelled exactly: quantities that stay rational
(times, thresholds, envelope values fed to the section analyzer) are `ℚ`;
quantities that pass through `Math.sqrt` / `Math.cos` (raw audio samples,
spectra, RMS energies) are `ℝ`.
-/

namespace BeatSync

/-- Section type tag, the closed enumeration of `MusicSection['type']`
(src/src/types/index.ts). -/
inductive SectionType where
  | intro
  | verse
  | chorus
  | drop
  | breakdown
  | outro
  | unknown
deriving DecidableEq, Repr

/-- The `MusicSection` record (src/src/types/index.ts): time range plus type tag
and average energy. -/
structure MusicSection where
  type : SectionType
  startTime : ℚ
  endTime : ℚ
  energy : ℚ
deriving DecidableEq, Repr

instance : Inhabited MusicSection := ⟨⟨SectionType.unknown, 0, 0, 0⟩⟩

/-- An energy change event `{time, delta}` emitted by `detectEnergyChanges`
(src/src/services/EnergyAnalyzer.ts). -/
structure EnergyChange where
  time : ℚ
  delta : ℚ
deriving DecidableEq, Repr

namespace EnergyAnalyzer

/-- Model of `getAverageEnergy` (src/src/services/EnergyAnalyzer.ts lines 109-125):
mean of the envelope entries over index range
`⌊startTime*10⌋ .. min ⌈endTime*10⌉ length`, `0` if the range is empty. -/
def getAverageEnergy (energyCurve : List ℚ) (startTime endTime : ℚ) : ℚ :=
  let startIndex : ℤ := ⌊startTime * 10⌋
  let endIndex : ℤ := min ⌈endTime * 10⌉ (energyCurve.length : ℤ)
  if endIndex ≤ startIndex then 0
  else
    (((List.range (endIndex - startIndex).toNat).map
        (fun (j : ℕ) => energyCurve.getD (startIndex + (j : ℤ)).toNat 0)).sum)
      / ((endIndex - startIndex : ℤ) : ℚ)

/-- One step of the `detectEnergyChanges` loop body (lines 144-168): compare
the mean of the preceding 10 envelope samples with the following 10, and emit
`{time, delta}` when `|delta| ≥ threshold` and no event was emitted within the
last second. -/
def detectEnergyChangesStep (energyCurve : List ℚ) (threshold : ℚ)
    (changes : List EnergyChange) (i : ℕ) : List EnergyChange :=
  let lookWindow : ℕ := 10
  let beforeSum := ((List.range lookWindow).map
    (fun j => energyCurve.getD (i - lookWindow + j) 0)).sum
  let afterSum := ((List.range lookWindow).map
    (fun j => energyCurve.getD (i + j) 0)).sum
  let beforeAvg := beforeSum / (lookWindow : ℚ)
  let afterAvg := afterSum / (lookWindow : ℚ)
  let delta := afterAvg - beforeAvg
  if |delta| ≥ threshold then
    match changes.getLast? with
    | none => changes ++ [⟨(i : ℚ) / 10, delta⟩]
    | some last =>
      if (i : ℚ) / 10 - last.time ≥ 1 then changes ++ [⟨(i : ℚ) / 10, delta⟩]
      else changes
  else changes

/-- Model of `detectEnergyChanges` (src/src/services/EnergyAnalyzer.ts lines 135-171):
scan interior indices `10 ≤ i < length - 10` and collect energy change
events. -/
def detectEnergyChanges (energyCurve : List ℚ) (threshold : ℚ := 1/5) :
    List EnergyChange :=
  (List.range' 10 (energyCurve.length - 2 * 10)).foldl
    (detectEnergyChangesStep energyCurve threshold) []

end EnergyAnalyzer

namespace SectionAnalyzer

open EnergyAnalyzer

/-- Model of `classifySection` (src/unnamed/part_001 lines 44-83): threshold ladder
mapping (energy, position, energy change) to a section type; first matching
rule wins. -/
def classifySection (energy startTime endTime totalDuration energyChange : ℚ) :
    SectionType :=
  if startTime < 15 ∧ energy < 7/10 then SectionType.intro
  else if endTime > totalDuration - 15 ∧ energy < 7/10 then SectionType.outro
  else if energy ≥ 7/10 then
    (if energyChange > 1/4 then SectionType.drop else SectionType.chorus)
  else if energy ≥ 2/5 then SectionType.verse
  else if energyChange < -(1/5) then SectionType.breakdown
  else SectionType.unknown

/-- Loop of `mergeSections` (src/unnamed/part_001 lines 94-109): coalesce the
running `current` section with each following section of the same type,
extending its end time and averaging the two energies. -/
def mergeSectionsGo (merged : List MusicSection) (current : MusicSection) :
    List MusicSection → List MusicSection
  | [] => merged ++ [current]
  | next :: rest =>
    if next.type = current.type then
      mergeSectionsGo merged
        { current with endTime := next.endTime,
                       energy := (current.energy + next.energy) / 2 } rest
    else
      mergeSectionsGo (merged ++ [current]) next rest

/-- Model of `mergeSections` (src/unnamed/part_001 lines 88-111): merge adjacent
sections of the same type. -/
def mergeSections : List MusicSection → List MusicSection
  | [] => []
  | s :: rest => mergeSectionsGo [] s rest

/-- Loop of `snapToNearestBar` (src/unnamed/part_001 lines 214-222): linear
scan keeping the nearest bar so far, breaking once a bar exceeds the target
time by more than 2 s. -/
def snapToNearestBarGo (time : ℚ) (nearestBar minDiff : ℚ) :
    List ℚ → ℚ
  | [] => nearestBar
  | barTime :: rest =>
    let diff := |time - barTime|
    let next := if diff < minDiff then (barTime, diff) else (nearestBar, minDiff)
    if barTime > time + 2 then next.1
    else snapToNearestBarGo time next.1 next.2 rest

/-- Model of `snapToNearestBar` (src/unnamed/part_001 lines 208-225): snap a time to
the nearest bar timestamp; identity when no bars are supplied. -/
def snapToNearestBar (time : ℚ) (barTimes : List ℚ) : ℚ :=
  match barTimes with
  | [] => time
  | b0 :: _ => snapToNearestBarGo time b0 (|time - b0|) barTimes

/-- Boundary collection of `analyzeSections` (src/unnamed/part_001 lines
140-149): start from `[0]` and append each bar-snapped energy-change time
that is at least 4 s past the last accepted boundary. -/
def buildBoundaries (energyChanges : List EnergyChange) (barTimes : List ℚ) :
    List ℚ :=
  energyChanges.foldl (fun boundaries change =>
    let snappedTime := snapToNearestBar change.time barTimes
    if snappedTime - boundaries.getLastD 0 ≥ 4 then boundaries ++ [snappedTime]
    else boundaries) [0]

/-- Termination step of `analyzeSections` (src/unnamed/part_001 lines
151-158): append the track duration if the tail gap is at least 4 s, else
overwrite the last boundary with it, unless only the initial `0` exists. -/
def finalizeBoundaries (audioDuration : ℚ) (boundaries : List ℚ) : List ℚ :=
  if audioDuration - boundaries.getLastD 0 ≥ 4 then boundaries ++ [audioDuration]
  else if 1 < boundaries.length then boundaries.dropLast ++ [audioDuration]
  else boundaries ++ [audioDuration]

/-- Coarse-phrase fallback of `analyzeSections` (src/unnamed/part_001 lines
160-172): when only `[0, duration]` survived and bar data exists, inject
every 8th bar time lying strictly inside `(4, duration - 4)`, then sort. -/
def fallbackBoundaries (barTimes : List ℚ) (boundaries : List ℚ) : List ℚ :=
  if boundaries.length = 2 ∧ 0 < barTimes.length then
    let b0 := boundaries.getD 0 0
    let b1 := boundaries.getD 1 0
    let extra := ((List.range barTimes.length).filter
        (fun i => i % 8 = 0 ∧ 8 ≤ i)).filterMap (fun i =>
      let barTime := barTimes.getD i 0
      if barTime > b0 + 4 ∧ barTime < b1 - 4 then some barTime else none)
    List.insertionSort (· ≤ ·) (boundaries ++ extra)
  else boundaries

/-- Section construction of `analyzeSections` (src/unnamed/part_001 lines
175-199): one section per adjacent boundary pair, with its average energy,
the energy change from the previous interval (itself for the first), and the
classified type. -/
def sectionsFromBoundaries (energyCurve : List ℚ) (audioDuration : ℚ)
    (boundaries : List ℚ) : List MusicSection :=
  (List.range (boundaries.length - 1)).map (fun i =>
    let startTime := boundaries.getD i 0
    let endTime := boundaries.getD (i + 1) 0
    let energy := getAverageEnergy energyCurve startTime endTime
    let prevEnergy :=
      if 0 < i then getAverageEnergy energyCurve (boundaries.getD (i - 1) 0) startTime
      else energy
    { type := classifySection energy startTime endTime audioDuration (energy - prevEnergy),
      startTime := startTime, endTime := endTime, energy := energy })

/-- Model of `analyzeSections` (src/unnamed/part_001 lines 121-203): energy changes at
threshold 0.15 → boundaries (snapped, finalized, coarse fallback) → sections
→ merge; a single `unknown` section when the envelope is empty. -/
def analyzeSections (energyCurve : List ℚ) (barTimes : List ℚ)
    (audioDuration : ℚ) : List MusicSection :=
  if energyCurve.length = 0 then
    [{ type := SectionType.unknown, startTime := 0, endTime := audioDuration,
       energy := 1/2 }]
  else
    mergeSections (sectionsFromBoundaries energyCurve audioDuration
      (fallbackBoundaries barTimes (finalizeBoundaries audioDuration
        (buildBoundaries (detectEnergyChanges energyCurve (15/100)) barTimes))))

end SectionAnalyzer

namespace BeatWorker

/-- Tempo derivation inside `analyzeBeatsEnhanced` (src/unnamed/part_002 lines
203-211): `60 / meanInterBeatInterval` when at least two beats are supplied,
default `120` otherwise. -/
def computeTempo (beatTimes : List ℚ) : ℚ :=
  if 2 ≤ beatTimes.length then
    let intervals := List.zipWith (fun a b => b - a) beatTimes beatTimes.tail
    60 / (intervals.sum / (intervals.length : ℚ))
  else 120

/-- Bar derivation inside `analyzeBeatsEnhanced` (src/unnamed/part_002 lines
214-217): the beat at every 4th index. -/
def computeBarTimes (beatTimes : List ℚ) : List ℚ :=
  ((List.range beatTimes.length).filter (fun i => i % 4 = 0)).map
    (fun i => beatTimes.getD i 0)

/-- Per-beat RMS window of `calculateBeatStrengths` (src/unnamed/part_002
lines 113-115): `start = max 0 (⌊beatTime·sampleRate⌋ - 1024)`,
`end = min audioData.length (⌊beatTime·sampleRate⌋ + 1024)`. -/
def rmsWindow (len : ℕ) (sampleRate beatTime : ℚ) : ℤ × ℤ :=
  let sampleIndex := ⌊beatTime * sampleRate⌋
  (max 0 (sampleIndex - 1024), min (len : ℤ) (sampleIndex + 1024))

open Classical in
/-- Model of `calculateBeatStrengths` (src/unnamed/part_002 lines 104-133): RMS over a
±1024-sample window centred on each beat's sample index (bounds clamped),
then normalisation by the maximum (all zero when the maximum is zero). -/
noncomputable def calculateBeatStrengths (audioData : List ℝ)
    (beatTimes : List ℚ) (sampleRate : ℚ) : List ℝ :=
  let rawStrengths := beatTimes.map (fun beatTime =>
    let w := rmsWindow audioData.length sampleRate beatTime
    let sumSquares := ((List.range (w.2 - w.1).toNat).map
      (fun (k : ℕ) => (audioData.getD (w.1 + (k : ℤ)).toNat 0) ^ 2)).sum
    Real.sqrt (sumSquares / ((w.2 - w.1 : ℤ) : ℝ)))
  if rawStrengths.length = 0 then []
  else
    let maxStrength := rawStrengths.foldl max rawStrengths.headI
    if maxStrength = 0 then rawStrengths.map (fun _ => 0)
    else rawStrengths.map (fun s => s / maxStrength)

end BeatWorker

/-- The `DrumPattern` record (src/src/types/index.ts): three onset-time sequences
plus a pattern-length estimate. -/
structure DrumPattern where
  kickTimes : List ℚ
  snareTimes : List ℚ
  hihatTimes : List ℚ
  patternLength : ℚ
deriving DecidableEq, Repr

namespace EnergyAnalyzer

/-- Model of `calculateRMS` (src/src/services/EnergyAnalyzer.ts lines 19-31): root
mean square of `samples[start..stop)`, `0` when the window is empty. -/
noncomputable def calculateRMS (samples : List ℝ) (start stop : ℕ) : ℝ :=
  let count := stop - start
  if count = 0 then 0
  else Real.sqrt ((((List.range count).map
    (fun i => (samples.getD (start + i) 0) ^ 2)).sum) / (count : ℝ))

/-- Model of `smoothEnergyCurve` (src/src/services/EnergyAnalyzer.ts lines 37-54):
centred moving average with window radius `windowSize / 2`, clamped at both
ends. -/
noncomputable def smoothEnergyCurve (curve : List ℝ) (windowSize : ℕ) : List ℝ :=
  let halfWindow := windowSize / 2
  (List.range curve.length).map (fun i =>
    let lo := i - halfWindow
    let hi := min curve.length (i + halfWindow + 1)
    let cnt := hi - lo
    (((List.range cnt).map (fun j => curve.getD (lo + j) 0)).sum) / (cnt : ℝ))

/-- Model of `analyzeEnergy` (src/src/services/EnergyAnalyzer.ts lines 63-98):
per-window RMS at 10 Hz, 5-sample smoothing, then normalisation by the global
maximum (all zeros when the maximum is `0`, as the zero-initialised output
array is returned unfilled). -/
noncomputable def analyzeEnergy (audioData : List ℝ) (sampleRate : ℚ) : List ℝ :=
  let audioDuration : ℚ := (audioData.length : ℚ) / sampleRate
  let outputLength := (⌈audioDuration * 10⌉).toNat
  let windowSamples := (⌊sampleRate / 10⌋).toNat
  let rawEnergy := (List.range outputLength).map (fun i =>
    calculateRMS audioData (i * windowSamples)
      (min (i * windowSamples + windowSamples) audioData.length))
  let smoothed := smoothEnergyCurve rawEnergy 5
  let maxEnergy := smoothed.foldl max 0
  if 0 < maxEnergy then smoothed.map (fun x => x / maxEnergy)
  else List.replicate smoothed.length 0

end EnergyAnalyzer

namespace DrumAnalyzer

/-- Model of `createHammingWindow` (src/src/services/EnergyAnalyzer.ts lines 228-234,
DrumAnalyzer portion): `0.54 - 0.46·cos(2πi/(size-1))`. -/
noncomputable def createHammingWindow (size : ℕ) : List ℝ :=
  (List.range size).map (fun i =>
    0.54 - 0.46 * Real.cos ((2 * Real.pi * i) / ((size - 1 : ℕ) : ℝ)))

/-- Model of `applyWindow` (lines 239-245): pointwise product of a frame with the
window (the window is never shorter than the frame in this pipeline). -/
noncomputable def applyWindow (samples window : List ℝ) : List ℝ :=
  List.zipWith (· * ·) samples window

/-- Model of `reverseBits` (lines 320-327): reverse the low `bits` bits of `x` by
repeated shift-and-or. -/
def reverseBits (x bits : ℕ) : ℕ :=
  ((List.range bits).foldl (fun p _ => (2 * p.1 + p.2 % 2, p.2 / 2)) (0, x)).1

/-- Bit-reversal permutation pass of `computeMagnitudeSpectrum` (lines
266-280): swap positions `i < reverseBits i` in both component arrays. -/
def bitReversalPermute (n bits : ℕ) (st : List ℝ × List ℝ) : List ℝ × List ℝ :=
  (List.range n).foldl (fun st i =>
    let r := reverseBits i bits
    if i < r then
      ((st.1.set i (st.1.getD r 0)).set r (st.1.getD i 0),
       (st.2.set i (st.2.getD r 0)).set r (st.2.getD i 0))
    else st) st

/-- One butterfly operation of the Cooley–Tukey pass (lines 288-304). -/
noncomputable def butterflyUpdate (size : ℕ) (st : List ℝ × List ℝ)
    (i j : ℕ) : List ℝ × List ℝ :=
  let halfSize := size / 2
  let angle := (-2 * Real.pi / (size : ℝ)) * j
  let c := Real.cos angle
  let s := Real.sin angle
  let e := i + j
  let o := i + j + halfSize
  let tR := st.1.getD o 0 * c - st.2.getD o 0 * s
  let tI := st.1.getD o 0 * s + st.2.getD o 0 * c
  ((st.1.set o (st.1.getD e 0 - tR)).set e (st.1.getD e 0 + tR),
   (st.2.set o (st.2.getD e 0 - tI)).set e (st.2.getD e 0 + tI))

/-- The iterative Cooley–Tukey passes (lines 283-306): for each
`size = 2, 4, …, N` run the butterflies on every block of `size` entries. -/
noncomputable def fftPasses (n : ℕ) (st : List ℝ × List ℝ) : List ℝ × List ℝ :=
  ((List.range (Nat.log2 n)).map (fun s => 2 ^ (s + 1))).foldl (fun st size =>
    (List.range (n / size)).foldl (fun st k =>
      (List.range (size / 2)).foldl
        (fun st j => butterflyUpdate size st (k * size) j) st) st) st

/-- Model of `computeMagnitudeSpectrum` (lines 254-315): `none` models the thrown
`Error` when the frame length has more than one set bit (`N & (N-1) ≠ 0`);
otherwise the magnitudes `sqrt(re²+im²)` of the `N/2` positive-frequency
bins. -/
noncomputable def computeMagnitudeSpectrum (samples : List ℝ) :
    Option (List ℝ) :=
  let n := samples.length
  if Nat.land n (n - 1) ≠ 0 then none
  else
    let st1 := bitReversalPermute n (Nat.log2 n) (samples, List.replicate n 0)
    let st2 := fftPasses n st1
    some ((List.range (n / 2)).map (fun k =>
      Real.sqrt ((st2.1.getD k 0) ^ 2 + (st2.2.getD k 0) ^ 2)))

/-- Model of `getBandEnergy` (lines 332-348): RMS of the spectrum over the bin range
of `[lowHz, highHz]`. -/
noncomputable def getBandEnergy (spectrum : List ℝ)
    (sampleRate lowHz highHz : ℚ) : ℝ :=
  let binResolution := sampleRate / ((spectrum.length : ℚ) * 2)
  let lowBin := ⌊lowHz / binResolution⌋
  let highBin := min ⌈highHz / binResolution⌉ ((spectrum.length : ℤ) - 1)
  let energy := ((List.range (highBin - lowBin + 1).toNat).map
    (fun (k : ℕ) => (spectrum.getD (lowBin + (k : ℤ)).toNat 0) ^ 2)).sum
  Real.sqrt (energy / ((highBin - lowBin + 1 : ℤ) : ℝ))

open Classical in
/-- Model of `detectOnsets` (lines 353-384): adaptive thresholding against the mean of
the previous 10 frames with a rising-edge gate, enforcing `minInterval`
between accepted onsets. -/
noncomputable def detectOnsets (energy : List ℝ) (frameTimes : List ℚ)
    (threshold : ℝ) (minInterval : ℚ) : List ℚ :=
  (List.range' 10 (energy.length - 10 - 1)).foldl (fun onsets i =>
    let localMean :=
      (((List.range 10).map (fun j => energy.getD (i - 10 + j) 0)).sum) / 10
    if energy.getD i 0 > threshold * localMean ∧
        energy.getD i 0 > energy.getD (i - 1) 0 then
      let time := frameTimes.getD i 0
      match onsets.getLast? with
      | none => onsets ++ [time]
      | some last =>
        if time - last ≥ minInterval then onsets ++ [time] else onsets
    else onsets) []

/-- Model of `analyzeDrums` (lines 394-459): frame the signal (2048 samples, hop 512),
window + FFT + three band energies per frame, onset detection per band, and
the 16-beat pattern-length estimate; empty pattern when fewer than one full
frame fits. -/
noncomputable def analyzeDrums (audioData : List ℝ) (sampleRate : ℚ)
    (beatTimes : List ℚ) : DrumPattern :=
  let numFrames : ℤ := ⌊((audioData.length : ℚ) - 2048) / 512⌋
  if numFrames ≤ 0 then ⟨[], [], [], 0⟩
  else
    let nF := numFrames.toNat
    let window := createHammingWindow 2048
    let spectra := (List.range nF).map (fun frame =>
      (computeMagnitudeSpectrum
        (applyWindow ((audioData.drop (frame * 512)).take 2048) window)).getD [])
    let kickEnergy := spectra.map (fun sp => getBandEnergy sp sampleRate 20 200)
    let snareEnergy := spectra.map (fun sp => getBandEnergy sp sampleRate 200 2000)
    let hihatEnergy := spectra.map (fun sp => getBandEnergy sp sampleRate 5000 15000)
    let frameTimes := (List.range nF).map (fun frame =>
      ((frame * 512 + 1024 : ℕ) : ℚ) / sampleRate)
    let kickTimes := detectOnsets kickEnergy frameTimes (9/5 : ℝ) (3/20)
    let snareTimes := detectOnsets snareEnergy frameTimes (2 : ℝ) (3/25)
    let hihatTimes := detectOnsets hihatEnergy frameTimes (8/5 : ℝ) (1/20)
    let patternLength :=
      if 2 ≤ beatTimes.length then
        ((beatTimes.getLastD 0 - beatTimes.headI) /
          ((beatTimes.length : ℚ) - 1)) * 16
      else 0
    ⟨kickTimes, snareTimes, hihatTimes, patternLength⟩

end DrumAnalyzer

end BeatSync

namespace BeatSync

open EnergyAnalyzer

/-- C5 counterexample: `getAverageEnergy(env, t, t)` is *not* always `0`.
With the one-sample envelope `[1/2]` and `t = 1/20` (so `10·t = 1/2` is not an
integer) the index range is `⌊1/2⌋ = 0 .. min ⌈1/2⌉ 1 = 1`, which is nonempty,
and the function returns the envelope sample `1/2 ≠ 0`. -/
theorem getAverageEnergy_self_ne_zero :
    getAverageEnergy [1/2] (1/20) (1/20) = 1/2 ∧
      getAverageEnergy [1/2] (1/20) (1/20) ≠ 0 := by
  have hfloor : ⌊(1/20 : ℚ) * 10⌋ = 0 := by norm_num
  have hceil : ⌈(1/20 : ℚ) * 10⌉ = 1 := by
    rw [Int.ceil_eq_iff] <;> norm_num
  have h : getAverageEnergy [1/2] (1/20) (1/20) = 1/2 := by
    unfold getAverageEnergy
    rw [hfloor, hceil]
    norm_num [List.range_succ]
  exact ⟨h, by rw [h]; norm_num⟩

/-- C5 (amended): for every envelope and every time `t` such that `10·t` is an
integer, `getAverageEnergy env t t = 0`: the index range
`⌊10t⌋ .. min ⌈10t⌉ length` is then empty. -/
theorem getAverageEnergy_self_eq_zero (env : List ℚ) (t : ℚ)
    (h : ∃ k : ℤ, t * 10 = (k : ℚ)) :
    getAverageEnergy env t t = 0 := by
  obtain ⟨k, hk⟩ := h
  unfold getAverageEnergy
  have hfloor : ⌊t * 10⌋ = k := by rw [hk]; exact Int.floor_intCast k
  have hceil : ⌈t * 10⌉ = k := by rw [hk]; exact Int.ceil_intCast k
  simp only [hfloor, hceil]
  have : min k (env.length : ℤ) ≤ k := min_le_left _ _
  simp [this]

/-- C5 witness: the amended theorem applied at the concrete envelope `[1/2]`
and `t = 2`. -/
theorem getAverageEnergy_self_eq_zero_witness :
    (∃ k : ℤ, (2 : ℚ) * 10 = (k : ℚ)) ∧ getAverageEnergy [1/2] 2 2 = 0 :=
  ⟨⟨20, by norm_num⟩, getAverageEnergy_self_eq_zero [1/2] 2 ⟨20, by norm_num⟩⟩

/-- C10: on an envelope of at most 20 samples the `detectEnergyChanges` loop
`for (i = 10; i < length - 10; i++)` never runs, so no energy-change events
are produced, whatever the threshold. -/
theorem detectEnergyChanges_short (env : List ℚ) (threshold : ℚ)
    (h : env.length ≤ 20) :
    detectEnergyChanges env threshold = [] := by
  unfold detectEnergyChanges
  have : env.length - 2 * 10 = 0 := Nat.sub_eq_zero_of_le h
  rw [this]
  rfl

/-- C10 witness: the theorem applied to the concrete 3-sample envelope
`[1, 0, 1]` at the default threshold `1/5`. -/
theorem detectEnergyChanges_short_witness :
    ([1, 0, 1] : List ℚ).length ≤ 20 ∧ detectEnergyChanges [1, 0, 1] (1/5) = [] :=
  ⟨by decide, detectEnergyChanges_short [1, 0, 1] (1/5) (by decide)⟩

open SectionAnalyzer

/-- A fold whose step either keeps the accumulator or appends one element
preserves nonemptiness and the first element. -/
theorem foldl_keep_or_push {α : Type} (g : List ℚ → α → List ℚ)
    (hg : ∀ acc c, g acc c = acc ∨ ∃ x, g acc c = acc ++ [x]) :
    ∀ (l : List α) (init : List ℚ), init ≠ [] →
      l.foldl g init ≠ [] ∧ (l.foldl g init).headI = init.headI := by
  intro l
  induction l with
  | nil => intro init h; exact ⟨h, rfl⟩
  | cons c t ih =>
    intro init h
    have hstep : g init c ≠ [] ∧ (g init c).headI = init.headI := by
      rcases hg init c with h1 | ⟨x, h2⟩
      · rw [h1]; exact ⟨h, rfl⟩
      · rw [h2]
        constructor
        · simp
        · cases init with
          | nil => exact absurd rfl h
          | cons a t' => simp
    have := ih (g init c) hstep.1
    rw [List.foldl_cons]
    exact ⟨this.1, this.2.trans hstep.2⟩

/-- The boundary accumulation loop keeps `0` as the first boundary. -/
theorem buildBoundaries_spec (changes : List EnergyChange) (bars : List ℚ) :
    buildBoundaries changes bars ≠ [] ∧ (buildBoundaries changes bars).headI = 0 := by
  unfold buildBoundaries
  have := foldl_keep_or_push
    (fun boundaries change =>
      let snappedTime := snapToNearestBar change.time bars
      if snappedTime - boundaries.getLastD 0 ≥ 4 then boundaries ++ [snappedTime]
      else boundaries)
    (fun acc c => by
      dsimp only
      split
      · exact Or.inr ⟨_, rfl⟩
      · exact Or.inl rfl)
    changes [0] (by simp)
  simpa using this

/-- The termination step always ends the boundary list at the duration while
keeping `0` first and at least two boundaries. -/
theorem finalizeBoundaries_spec (d : ℚ) (bs : List ℚ) (hne : bs ≠ [])
    (hh : bs.headI = 0) :
    (finalizeBoundaries d bs).headI = 0 ∧
      (finalizeBoundaries d bs).getLast? = some d ∧
      2 ≤ (finalizeBoundaries d bs).length := by
  unfold finalizeBoundaries
  split
  · refine ⟨?_, List.getLast?_concat bs, ?_⟩
    · cases bs with
      | nil => exact absurd rfl hne
      | cons a t => simpa using hh
    · have : 1 ≤ bs.length := List.length_pos.mpr hne
      simp; omega
  · split
    · rename_i hlen
      refine ⟨?_, List.getLast?_concat _, ?_⟩
      · obtain ⟨a, b, t, rfl⟩ : ∃ a b t, bs = a :: b :: t := by
          cases bs with
          | nil => simp at hlen
          | cons a t =>
            cases t with
            | nil => simp at hlen
            | cons b t' => exact ⟨a, b, t', rfl⟩
        simpa using hh
      · simp [List.length_dropLast]; omega
    · refine ⟨?_, List.getLast?_concat bs, ?_⟩
      · cases bs with
        | nil => exact absurd rfl hne
        | cons a t => simpa using hh
      · have : 1 ≤ bs.length := List.length_pos.mpr hne
        simp; omega

/-- The first element of a sorted list that contains a lower bound of all its
elements is that bound. -/
theorem sorted_headI_eq (l : List ℚ) (x : ℚ) (hs : l.Sorted (· ≤ ·))
    (hx : x ∈ l) (hmin : ∀ y ∈ l, x ≤ y) : l.headI = x := by
  cases l with
  | nil => exact absurd hx (List.not_mem_nil x)
  | cons a t =>
    have ha : ∀ y ∈ t, a ≤ y := (List.sorted_cons.mp hs).1
    rcases List.mem_cons.mp hx with rfl | hxt
    · rfl
    · show a = x
      exact le_antisymm (ha x hxt) (hmin a (List.mem_cons_self a t))

/-- The last element of a sorted list that contains an upper bound of all its
elements is that bound. -/
theorem sorted_getLast?_eq (l : List ℚ) (x : ℚ) (hs : l.Sorted (· ≤ ·))
    (hx : x ∈ l) (hmax : ∀ y ∈ l, y ≤ x) : l.getLast? = some x := by
  induction l with
  | nil => exact absurd hx (List.not_mem_nil x)
  | cons a t ih =>
    cases t with
    | nil =>
      rcases List.mem_cons.mp hx with rfl | h
      · rfl
      · exact absurd h (List.not_mem_nil x)
    | cons b t' =>
      have hs' : (b :: t').Sorted (· ≤ ·) := (List.sorted_cons.mp hs).2
      have hxt : x ∈ b :: t' := by
        rcases List.mem_cons.mp hx with rfl | h
        · have hab : x ≤ b := (List.sorted_cons.mp hs).1 b (List.mem_cons_self b t')
          have hba : b ≤ x := hmax b (by simp)
          have : b = x := le_antisymm hba hab
          rw [← this]; exact List.mem_cons_self b t'
        · exact h
      have hmax' : ∀ y ∈ b :: t', y ≤ x := fun y hy => hmax y (List.mem_cons_of_mem a hy)
      rw [List.getLast?_cons_cons]
      exact ih hs' hxt hmax'

/-- Sorting `[0, d] ++ extra` where every element of `extra` lies strictly
between `0` and `d` keeps `0` first and `d` last. -/
theorem insertionSort_endpoints (d : ℚ) (hd : 0 < d) (extra : List ℚ)
    (hmem : ∀ x ∈ extra, 0 < x ∧ x < d) :
    (List.insertionSort (· ≤ ·) ([0, d] ++ extra)).headI = 0 ∧
      (List.insertionSort (· ≤ ·) ([0, d] ++ extra)).getLast? = some d ∧
      2 ≤ (List.insertionSort (· ≤ ·) ([0, d] ++ extra)).length := by
  set l := List.insertionSort (· ≤ ·) ([(0 : ℚ), d] ++ extra) with hldef
  have hperm : List.Perm l ([(0 : ℚ), d] ++ extra) := List.perm_insertionSort _ _
  have hsorted : l.Sorted (· ≤ ·) := List.sorted_insertionSort _ _
  have h0mem : (0 : ℚ) ∈ l := hperm.mem_iff.mpr (by simp)
  have hdmem : d ∈ l := hperm.mem_iff.mpr (by simp)
  have hbound : ∀ y ∈ l, 0 ≤ y ∧ y ≤ d := by
    intro y hy
    have : y ∈ [(0 : ℚ), d] ++ extra := hperm.mem_iff.mp hy
    rcases List.mem_append.mp this with h1 | h2
    · rcases List.mem_cons.mp h1 with rfl | h1'
      · exact ⟨le_refl 0, le_of_lt hd⟩
      · simp at h1'
        subst h1'
        exact ⟨le_of_lt hd, le_refl y⟩
    · have := hmem y h2
      exact ⟨le_of_lt this.1, le_of_lt this.2⟩
  refine ⟨?_, ?_, ?_⟩
  · exact sorted_headI_eq l 0 hsorted h0mem (fun y hy => (hbound y hy).1)
  · exact sorted_getLast?_eq l d hsorted hdmem (fun y hy => (hbound y hy).2)
  · have : l.length = ([(0 : ℚ), d] ++ extra).length := hperm.length_eq
    simp at this
    omega

/-- The coarse-phrase fallback keeps `0` first and the duration last: any
injected bar lies strictly between `4` and `duration - 4`, so sorting cannot
displace the end points. -/
theorem fallbackBoundaries_spec (bars bs : List ℚ) (d : ℚ) (hd : 0 < d)
    (hh : bs.headI = 0) (hl : bs.getLast? = some d) (hlen : 2 ≤ bs.length) :
    (fallbackBoundaries bars bs).headI = 0 ∧
      (fallbackBoundaries bars bs).getLast? = some d ∧
      2 ≤ (fallbackBoundaries bars bs).length := by
  unfold fallbackBoundaries
  split
  · rename_i hcond
    obtain ⟨a, b, hab⟩ : ∃ a b, bs = [a, b] := List.length_eq_two.mp hcond.1
    subst hab
    rw [show a = (0 : ℚ) from hh, show b = d from by simpa using hl]
    dsimp only
    have hmem : ∀ x ∈ ((List.range bars.length).filter
        (fun i => i % 8 = 0 ∧ 8 ≤ i)).filterMap (fun i =>
          if bars.getD i 0 > [(0 : ℚ), d].getD 0 0 + 4 ∧
             bars.getD i 0 < [(0 : ℚ), d].getD 1 0 - 4
          then some (bars.getD i 0) else none),
        0 < x ∧ x < d := by
      intro x hx
      obtain ⟨i, _, hi⟩ := List.mem_filterMap.mp hx
      split at hi
      · rename_i hcond'
        cases hi
        simp [List.getD] at hcond'
        simp only [List.getD_eq_getElem?_getD]
        constructor <;> linarith [hcond'.1, hcond'.2]
      · cases hi
    exact insertionSort_endpoints d hd _ hmem
  · exact ⟨hh, hl, hlen⟩

/-- Sections built from `n ≥ 2` boundaries: nonempty, first start is the
first boundary, last end is the last boundary, and adjacent sections are
contiguous. -/
theorem sectionsFromBoundaries_spec (env : List ℚ) (dur : ℚ) (b : List ℚ)
    (h2 : 2 ≤ b.length) :
    sectionsFromBoundaries env dur b ≠ [] ∧
      (sectionsFromBoundaries env dur b).headI.startTime = b.headI ∧
      ((sectionsFromBoundaries env dur b).getLast?.map MusicSection.endTime) =
        some (b.getLast?.getD 0) ∧
      List.Chain' (fun s t => s.endTime = t.startTime)
        (sectionsFromBoundaries env dur b) := by
  obtain ⟨k, hk⟩ : ∃ k, b.length - 1 = k + 1 := ⟨b.length - 2, by omega⟩
  unfold sectionsFromBoundaries
  rw [hk]
  refine ⟨by simp, ?_, ?_, ?_⟩
  · rw [List.range_succ_eq_map]
    show b.getD 0 0 = b.headI
    cases b with
    | nil => simp at h2
    | cons a t => rfl
  · rw [List.getLast?_map, List.range_succ k, List.getLast?_concat]
    show some (b.getD (k+1) 0) = some (b.getLast?.getD 0)
    congr 1
    rw [List.getD_eq_getElem?_getD, List.getLast?_eq_getElem?]
    congr 2
    omega
  · rw [List.chain'_map, List.chain'_range_succ]
    intro m _
    show b.getD (m+1) 0 = b.getD (m+1) 0
    rfl

/-- The `mergeSections` loop with accumulator `merged` equals the
accumulator-free loop prefixed with `merged`. -/
theorem mergeSectionsGo_append :
    ∀ (rest : List MusicSection) (merged : List MusicSection)
      (current : MusicSection),
      mergeSectionsGo merged current rest =
        merged ++ mergeSectionsGo [] current rest := by
  intro rest
  induction rest with
  | nil => intro merged current; simp [mergeSectionsGo]
  | cons next t ih =>
    intro merged current
    by_cases h : next.type = current.type
    · simp only [mergeSectionsGo, if_pos h]
      exact ih merged _
    · simp only [mergeSectionsGo, if_neg h]
      rw [ih (merged ++ [current]) next, ih ([] ++ [current]) next]
      simp

/-- Invariants of the `mergeSections` loop: the result is nonempty, starts
where (and with the type of) the running section starts, ends where the input
ends, and adjacent output sections are contiguous with distinct types. -/
theorem mergeSectionsGo_spec :
    ∀ (rest : List MusicSection) (current : MusicSection),
      List.Chain' (fun s t => s.endTime = t.startTime) (current :: rest) →
      (mergeSectionsGo [] current rest ≠ [] ∧
        (mergeSectionsGo [] current rest).headI.startTime = current.startTime ∧
        (mergeSectionsGo [] current rest).headI.type = current.type ∧
        ((mergeSectionsGo [] current rest).getLast?.map MusicSection.endTime) =
          (((current :: rest).getLast?).map MusicSection.endTime) ∧
        List.Chain' (fun s t => s.endTime = t.startTime ∧ s.type ≠ t.type)
          (mergeSectionsGo [] current rest)) := by
  intro rest
  induction rest with
  | nil =>
    intro current _
    refine ⟨by simp [mergeSectionsGo], ?_, ?_, ?_, ?_⟩ <;>
      simp [mergeSectionsGo]
  | cons next t ih =>
    intro current hchain
    have hcn : current.endTime = next.startTime :=
      (List.chain'_cons.mp hchain).1
    have htail : List.Chain' (fun s t => s.endTime = t.startTime) (next :: t) :=
      (List.chain'_cons.mp hchain).2
    by_cases h : next.type = current.type
    · have heq : mergeSectionsGo [] current (next :: t) =
          mergeSectionsGo []
            { current with endTime := next.endTime,
                           energy := (current.energy + next.energy) / 2 } t := by
        simp only [mergeSectionsGo, if_pos h]
      have hchain' : List.Chain' (fun s t => s.endTime = t.startTime)
          ({ current with endTime := next.endTime,
                          energy := (current.energy + next.energy) / 2 } :: t) := by
        cases t with
        | nil => simp
        | cons t0 ts =>
          have := (List.chain'_cons.mp htail).1
          exact List.chain'_cons.mpr ⟨this, (List.chain'_cons.mp htail).2⟩
      obtain ⟨ih1, ih2, ih3, ih4, ih5⟩ := ih _ hchain'
      rw [heq]
      refine ⟨ih1, by simpa using ih2, by simpa using ih3, ?_, ih5⟩
      rw [ih4]
      cases t with
      | nil => rfl
      | cons t0 ts => simp [List.getLast?_cons_cons]
    · have heq : mergeSectionsGo [] current (next :: t) =
          [current] ++ mergeSectionsGo [] next t := by
        simp only [mergeSectionsGo, if_neg h]
        rw [mergeSectionsGo_append t ([] ++ [current]) next]
        simp
      obtain ⟨ih1, ih2, ih3, ih4, ih5⟩ := ih next htail
      obtain ⟨x, xs, hx⟩ := List.exists_cons_of_ne_nil ih1
      rw [heq]
      refine ⟨by simp, by simp, by simp, ?_, ?_⟩
      · rw [List.getLast?_append_of_ne_nil [current] ih1, ih4]
        simp [List.getLast?_cons_cons]
      · rw [List.chain'_append]
        refine ⟨List.chain'_singleton current, ih5, ?_⟩
        intro a ha y hy
        simp at ha
        subst ha
        rw [hx] at hy
        simp at hy
        have hxs : y.startTime = next.startTime := by
          rw [hx] at ih2
          rw [← hy]
          exact ih2
        have hxt : y.type = next.type := by
          rw [hx] at ih3
          rw [← hy]
          exact ih3
        constructor
        · rw [hxs]; exact hcn
        · rw [hxt]; exact fun hc => h hc.symm

/-- Merging preserves nonemptiness, the first start time, the last
end time, and yields contiguous sections with no two adjacent types equal. -/
theorem mergeSections_spec (ss : List MusicSection) (hne : ss ≠ [])
    (hchain : List.Chain' (fun s t => s.endTime = t.startTime) ss) :
    mergeSections ss ≠ [] ∧
      (mergeSections ss).headI.startTime = ss.headI.startTime ∧
      ((mergeSections ss).getLast?.map MusicSection.endTime) =
        (ss.getLast?.map MusicSection.endTime) ∧
      List.Chain' (fun s t => s.endTime = t.startTime ∧ s.type ≠ t.type)
        (mergeSections ss) := by
  cases ss with
  | nil => exact absurd rfl hne
  | cons s rest =>
    obtain ⟨h1, h2, _, h4, h5⟩ := mergeSectionsGo_spec rest s hchain
    exact ⟨h1, h2, h4, h5⟩

/-- C1: for every energy envelope, bar-timestamp list and positive duration,
`analyzeSections` returns a nonempty list whose first section starts at `0`,
whose adjacent sections are contiguous with distinct types, and whose last
section ends at the duration. -/
theorem analyzeSections_invariants (env bars : List ℚ) (d : ℚ) (hd : 0 < d) :
    analyzeSections env bars d ≠ [] ∧
      (analyzeSections env bars d).headI.startTime = 0 ∧
      ((analyzeSections env bars d).getLast?.map MusicSection.endTime) = some d ∧
      List.Chain' (fun s t => s.endTime = t.startTime ∧ s.type ≠ t.type)
        (analyzeSections env bars d) := by
  unfold analyzeSections
  split
  · refine ⟨by simp, rfl, rfl, ?_⟩
    exact List.chain'_singleton _
  · obtain ⟨hbne, hbh⟩ := buildBoundaries_spec (detectEnergyChanges env (15/100)) bars
    obtain ⟨h1h, h1l, h1len⟩ := finalizeBoundaries_spec d _ hbne hbh
    obtain ⟨h2h, h2l, h2len⟩ := fallbackBoundaries_spec bars _ d hd h1h h1l h1len
    obtain ⟨hsne, hsh, hsl, hschain⟩ := sectionsFromBoundaries_spec env d _ h2len
    obtain ⟨hm1, hm2, hm3, hm4⟩ := mergeSections_spec _ hsne hschain
    refine ⟨hm1, ?_, ?_, hm4⟩
    · rw [hm2, hsh, h2h]
    · rw [hm3, hsl, h2l]
      rfl

/-- Sum of a constant function over `List.range m`. -/
theorem sum_map_range_const {α : Type} [CommRing α] (m : ℕ) (f : ℕ → α)
    (c : α) (h : ∀ j < m, f j = c) :
    ((List.range m).map f).sum = m * c := by
  induction m with
  | zero => simp
  | succ k ih =>
    rw [List.range_succ k, List.map_append, List.sum_append,
      ih (fun j hj => h j (by omega))]
    simp only [List.map_cons, List.map_nil, List.sum_cons, List.sum_nil]
    rw [h k (by omega)]
    push_cast
    ring

/-- A fold whose step fixes every accumulator is the identity. -/
theorem foldl_fixed {α β : Type} (f : β → α → β) (l : List α)
    (h : ∀ x ∈ l, ∀ acc, f acc x = acc) : ∀ init, l.foldl f init = init := by
  induction l with
  | nil => intro init; rfl
  | cons a t ih =>
    intro init
    rw [List.foldl_cons, h a (List.mem_cons_self a t)]
    exact ih (fun x hx acc => h x (List.mem_cons_of_mem a hx) acc) init

/-- Entries of a replicated list read through `getD`. -/
theorem getD_replicate_of_lt (n k : ℕ) (c : ℚ) (h : k < n) :
    (List.replicate n c).getD k 0 = c := by
  rw [List.getD_eq_getElem?_getD, List.getElem?_replicate, if_pos h]
  rfl

/-- On a constant envelope the before/after means of every interior index
coincide, so `detectEnergyChanges` emits nothing (for a positive
threshold). -/
theorem detectEnergyChanges_replicate (n : ℕ) (c θ : ℚ) (hθ : 0 < θ) :
    detectEnergyChanges (List.replicate n c) θ = [] := by
  unfold detectEnergyChanges
  refine foldl_fixed _ _ ?_ []
  intro i hi acc
  have hmem := List.mem_range'_1.mp hi
  rw [List.length_replicate] at hmem
  have hlow : 10 ≤ i := hmem.1
  have hhigh : i + 10 ≤ n := by omega
  unfold detectEnergyChangesStep
  have hb : ((List.range 10).map
      (fun j => (List.replicate n c).getD (i - 10 + j) 0)).sum = 10 * c := by
    refine sum_map_range_const 10 _ c ?_
    intro j hj
    exact getD_replicate_of_lt n _ c (by omega)
  have ha : ((List.range 10).map
      (fun j => (List.replicate n c).getD (i + j) 0)).sum = 10 * c := by
    refine sum_map_range_const 10 _ c ?_
    intro j hj
    exact getD_replicate_of_lt n _ c (by omega)
  simp only [hb, ha]
  have hzero : (10 : ℚ) * c / ((10 : ℕ) : ℚ) - (10 : ℚ) * c / ((10 : ℕ) : ℚ) = 0 := by
    ring
  rw [hzero]
  rw [if_neg]
  rw [abs_zero]
  exact not_le.mpr hθ

/-- Average of the constant envelope `1/2` of a 240 s track (2400 samples at
10 Hz) over the whole track. -/
theorem getAverageEnergy_replicate_2400 :
    getAverageEnergy (List.replicate 2400 (1/2 : ℚ)) 0 240 = 1/2 := by
  unfold getAverageEnergy
  have h0 : ⌊(0 : ℚ) * 10⌋ = 0 := by norm_num
  have hc : ⌈(240 : ℚ) * 10⌉ = 2400 := by norm_num
  simp only [h0, hc, List.length_replicate, Nat.cast_ofNat, min_self]
  rw [if_neg (by norm_num : ¬ (2400 : ℤ) ≤ 0)]
  rw [show ((2400 : ℤ) - 0) = 2400 from by ring]
  rw [show (2400 : ℤ).toNat = 2400 from rfl]
  have hsum : ((List.range 2400).map
      (fun j => (List.replicate 2400 (1/2 : ℚ)).getD ((0 : ℤ) + (j : ℕ)).toNat 0)).sum
      = (2400 : ℚ) * (1/2) := by
    refine sum_map_range_const 2400 _ (1/2) ?_
    intro j hj
    have hjj : ((0 : ℤ) + (j : ℕ)).toNat = j := by omega
    rw [hjj]
    exact getD_replicate_of_lt _ _ _ hj
  rw [hsum]
  norm_num

/-- Shared evaluation: `analyzeSections` on a 240 s track with constant
envelope `1/2` (2400 samples at 10 Hz) and no bars returns the single section
`⟨intro, 0, 240, 1/2⟩` — rule 1 of the classifier fires because the section
starts at `0 < 15` with energy `1/2 < 0.7`. -/
theorem analyzeSections_replicate_half :
    analyzeSections (List.replicate 2400 (1/2)) [] 240 =
      [{ type := SectionType.intro, startTime := 0, endTime := 240,
         energy := 1/2 }] := by
  unfold analyzeSections
  rw [if_neg (show ¬ (List.replicate 2400 ((1 : ℚ)/2)).length = 0 by
    rw [List.length_replicate]; norm_num)]
  rw [show (detectEnergyChanges (List.replicate 2400 (1/2)) (15/100)) = [] from
    detectEnergyChanges_replicate 2400 (1/2) (15/100) (by norm_num)]
  have h1 : buildBoundaries [] [] = [0] := rfl
  have h2 : finalizeBoundaries 240 [0] = [0, 240] := by
    unfold finalizeBoundaries
    rw [if_pos (by rw [show List.getLastD [(0:ℚ)] 0 = 0 from rfl]; norm_num :
      (240 : ℚ) - List.getLastD [0] 0 ≥ 4)]
    rfl
  have h3 : fallbackBoundaries [] [(0 : ℚ), 240] = [0, 240] := by
    unfold fallbackBoundaries
    rw [if_neg (by simp)]
  have henergy : getAverageEnergy (List.replicate 2400 (1/2)) 0 240 = 1/2 :=
    getAverageEnergy_replicate_2400
  have h4 : sectionsFromBoundaries (List.replicate 2400 (1/2)) 240 [0, 240] =
      [{ type := SectionType.intro, startTime := 0, endTime := 240,
         energy := 1/2 }] := by
    unfold sectionsFromBoundaries
    rw [show (([0, 240] : List ℚ).length - 1) = 1 from rfl]
    rw [show List.range 1 = [0] from rfl]
    simp only [List.map_cons, List.map_nil]
    have e0 : ([0, 240] : List ℚ).getD 0 0 = 0 := rfl
    have e1 : ([0, 240] : List ℚ).getD (0 + 1) 0 = 240 := rfl
    simp only [e0, e1, henergy]
    norm_num [classifySection]
  rw [h1, h2, h3, h4]
  rfl

/-- C2 counterexample: on the 240 s track with constant envelope `1/2` and no
bars/beats, `analyzeSections` does **not** return a `verse` section — the
classifier's first rule (`startTime < 15` and `energy < 0.7`) fires, so the
single section is typed `intro`. -/
theorem analyzeSections_const_not_verse :
    analyzeSections (List.replicate 2400 (1/2)) [] 240 ≠
      [{ type := SectionType.verse, startTime := 0, endTime := 240,
         energy := 1/2 }] := by
  rw [analyzeSections_replicate_half]
  intro h
  have := List.head_eq_of_cons_eq h
  simp at this

/-- C2 (amended): on a 240 s track whose envelope is constant `0.5` (2400
samples at 10 Hz) with empty bar and beat lists, `analyzeSections` returns
exactly one section `⟨intro, 0, 240, 0.5⟩` (not `verse`: classification rule 1
fires since the section starts at 0 with energy below 0.7). -/
theorem analyzeSections_const_single_intro :
    analyzeSections (List.replicate 2400 (1/2)) [] 240 =
      [{ type := SectionType.intro, startTime := 0, endTime := 240,
         energy := 1/2 }] :=
  analyzeSections_replicate_half

/-- C1 witness: the invariants applied to the empty envelope, empty bar list
and duration `1`. -/
theorem analyzeSections_invariants_witness :
    (0 : ℚ) < 1 ∧
      (analyzeSections [] [] 1 ≠ [] ∧
        (analyzeSections [] [] 1).headI.startTime = 0 ∧
        ((analyzeSections [] [] 1).getLast?.map MusicSection.endTime) = some 1 ∧
        List.Chain' (fun s t => s.endTime = t.startTime ∧ s.type ≠ t.type)
          (analyzeSections [] [] 1)) :=
  ⟨by norm_num, analyzeSections_invariants [] [] 1 (by norm_num)⟩

open BeatWorker

/-- Tempo of the 120 BPM scenario beat list (9 beats spaced 0.5 s). -/
theorem computeTempo_scenario :
    computeTempo [0, 1/2, 1, 3/2, 2, 5/2, 3, 7/2, 4] = 120 := by
  norm_num [computeTempo]

/-- Bar times of the 120 BPM scenario beat list: indices 0, 4 **and 8**. -/
theorem computeBarTimes_scenario :
    computeBarTimes [0, 1/2, 1, 3/2, 2, 5/2, 3, 7/2, 4] = [0, 2, 4] := by
  norm_num [computeBarTimes, List.range_succ]

/-- C6 counterexample: with 9 beats the bar loop `for (i = 0; i < 9; i += 4)`
visits indices 0, 4 and 8, so the derived bar list is `[0, 2, 4]`, not the
`[0, 2]` the claim states (the tempo half of the scenario does hold). -/
theorem tempo_scenario_bars_ne :
    computeTempo [0, 1/2, 1, 3/2, 2, 5/2, 3, 7/2, 4] = 120 ∧
      computeBarTimes [0, 1/2, 1, 3/2, 2, 5/2, 3, 7/2, 4] ≠ [0, 2] := by
  refine ⟨computeTempo_scenario, ?_⟩
  rw [computeBarTimes_scenario]
  intro h
  have := congrArg List.length h
  simp at this

/-- C6 (amended): for the beat list `[0, 0.5, …, 4.0]` the pipeline's tempo
computation yields exactly `120` and its bar-timestamp computation (every 4th
beat index: 0, 4, 8) yields exactly `[0, 2, 4]`. -/
theorem tempo_and_bars_scenario :
    computeTempo [0, 1/2, 1, 3/2, 2, 5/2, 3, 7/2, 4] = 120 ∧
      computeBarTimes [0, 1/2, 1, 3/2, 2, 5/2, 3, 7/2, 4] = [0, 2, 4] :=
  ⟨computeTempo_scenario, computeBarTimes_scenario⟩

/-- C9 counterexample: the claimed precondition
`⌊t·sampleRate⌋ < length + 1024` does not make the RMS divisor positive — a
beat far before the start of the track (here `t = -2048` s at 1 Hz, audio of
one sample) satisfies it yet yields divisor `min 1 (-1024) - max 0 (-3072) =
-1024 ≤ 0`. -/
theorem rmsWindow_divisor_not_guarded :
    (⌊(-2048 : ℚ) * 1⌋ < ((1 : ℕ) : ℤ) + 1024) ∧
      ¬ 0 < (rmsWindow 1 1 (-2048)).2 - (rmsWindow 1 1 (-2048)).1 := by
  constructor
  · norm_num
  · unfold rmsWindow
    rw [show ⌊(-2048 : ℚ) * 1⌋ = -2048 from by norm_num]
    dsimp only
    omega

/-- C9 (amended): if the audio is nonempty and every beat's sample index
`⌊t·sampleRate⌋` lies strictly between `-1024` and `length + 1024`, then the
RMS divisor `end - start` is positive for every beat; and the clamping alone
never guards the division for beats at or beyond `length + 1024` samples
(there the divisor is always `≤ 0`). -/
theorem rmsWindow_divisor_pos (audioData : List ℝ) (beatTimes : List ℚ)
    (sampleRate : ℚ) (hne : audioData ≠ [])
    (hub : ∀ t ∈ beatTimes, ⌊t * sampleRate⌋ < (audioData.length : ℤ) + 1024)
    (hlb : ∀ t ∈ beatTimes, -1024 < ⌊t * sampleRate⌋) :
    (∀ t ∈ beatTimes,
        0 < (rmsWindow audioData.length sampleRate t).2 -
          (rmsWindow audioData.length sampleRate t).1) ∧
      (∀ (len : ℕ) (r t' : ℚ), (len : ℤ) + 1024 ≤ ⌊t' * r⌋ →
        (rmsWindow len r t').2 - (rmsWindow len r t').1 ≤ 0) := by
  constructor
  · intro t ht
    have h1 := hub t ht
    have h2 := hlb t ht
    have hlen : 1 ≤ audioData.length := List.length_pos.mpr hne
    unfold rmsWindow
    dsimp only
    omega
  · intro len r t' h
    unfold rmsWindow
    dsimp only
    omega

/-- C9 witness: the amended theorem applied to the one-sample waveform `[1]`
at 1 Hz with the single beat `t = 1/2`. -/
theorem rmsWindow_divisor_pos_witness :
    ([(1 : ℝ)] ≠ []) ∧
      0 < (rmsWindow 1 1 (1/2)).2 - (rmsWindow 1 1 (1/2)).1 :=
  ⟨by simp,
    (rmsWindow_divisor_pos [1] [1/2] 1 (by simp)
        (by
          intro t ht
          simp at ht
          subst ht
          norm_num)
        (by
          intro t ht
          simp at ht
          subst ht
          norm_num)).1 (1/2) (by simp)⟩

open DrumAnalyzer

/-- Characterisation: `n & (n-1) = 0` exactly when `n` is zero or a power of two. -/
theorem land_pred_eq_zero_iff (n : ℕ) :
    Nat.land n (n - 1) = 0 ↔ (n = 0 ∨ ∃ k, n = 2 ^ k) := by
  constructor
  · intro h
    by_cases h0 : n = 0
    · exact Or.inl h0
    · right
      refine ⟨Nat.log2 n, ?_⟩
      have hb1 : 2 ^ Nat.log2 n ≤ n := Nat.log2_self_le h0
      have hb2 : n < 2 ^ (Nat.log2 n + 1) := Nat.lt_log2_self
      by_contra hne
      have hgt : 2 ^ Nat.log2 n < n := lt_of_le_of_ne hb1 (fun he => hne he.symm)
      have ht1 : n.testBit (Nat.log2 n) = true := by
        rw [Nat.testBit_to_div_mod]
        have hdiv : n / 2 ^ Nat.log2 n = 1 := by
          refine Nat.div_eq_of_lt_le (by simpa using hb1) ?_
          calc n < 2 ^ (Nat.log2 n + 1) := hb2
          _ = (1 + 1) * 2 ^ Nat.log2 n := by ring
        simp [hdiv]
      have ht2 : (n - 1).testBit (Nat.log2 n) = true := by
        rw [Nat.testBit_to_div_mod]
        have hdiv : (n - 1) / 2 ^ Nat.log2 n = 1 := by
          refine Nat.div_eq_of_lt_le (by simpa using Nat.le_sub_one_of_lt hgt) ?_
          have hlt : n - 1 < 2 ^ (Nat.log2 n + 1) := by omega
          calc n - 1 < 2 ^ (Nat.log2 n + 1) := hlt
          _ = (1 + 1) * 2 ^ Nat.log2 n := by ring
        simp [hdiv]
      have hbit := congrArg (fun x => x.testBit (Nat.log2 n)) h
      rw [show Nat.land n (n - 1) = n &&& (n - 1) from rfl] at hbit
      simp only [Nat.testBit_land, ht1, ht2, Nat.zero_testBit,
        Bool.and_self] at hbit
      exact Bool.noConfusion hbit
  · rintro (rfl | ⟨k, rfl⟩)
    · rfl
    · refine Nat.eq_of_testBit_eq (fun i => ?_)
      rw [show Nat.land (2 ^ k) (2 ^ k - 1) = (2 ^ k) &&& (2 ^ k - 1) from rfl]
      rw [Nat.testBit_land, Nat.testBit_two_pow, Nat.testBit_two_pow_sub_one,
        Nat.zero_testBit]
      by_cases hik : k = i
      · subst hik; simp
      · simp [hik]

/-- C7 (amended): the magnitude-spectrum computation succeeds (returning
`⌊N/2⌋` magnitudes) exactly when the frame length `N` is zero or a power of
two, and fails fatally otherwise — length 0 slips through the
`N & (N-1) ≠ 0` check, so the claim's "every non-power-of-two length throws"
holds only for nonempty frames. -/
theorem computeMagnitudeSpectrum_spec (samples : List ℝ) :
    (computeMagnitudeSpectrum samples).elim
      (¬ (samples.length = 0 ∨ ∃ k, samples.length = 2 ^ k))
      (fun m => (samples.length = 0 ∨ ∃ k, samples.length = 2 ^ k) ∧
        m.length = samples.length / 2) := by
  simp only [computeMagnitudeSpectrum]
  split
  · rename_i hland
    rw [show ∀ A B, Option.elim (none : Option (List ℝ)) A B = A from
      fun A B => rfl]
    rw [← land_pred_eq_zero_iff samples.length]
    exact hland
  · rename_i hland
    push_neg at hland
    refine ⟨(land_pred_eq_zero_iff _).mp hland, ?_⟩
    simp

/-- C7 counterexample: the empty frame has length `0`, not a power of two,
yet `0 & (0-1) = 0` passes the guard and the FFT returns an empty spectrum
without error. -/
theorem computeMagnitudeSpectrum_nil :
    computeMagnitudeSpectrum ([] : List ℝ) = some [] ∧
      ¬ ∃ k : ℕ, (0 : ℕ) = 2 ^ k := by
  constructor
  · rfl
  · rintro ⟨k, hk⟩
    have : 0 < 2 ^ k := Nat.pos_pow_of_pos k (by norm_num)
    omega

/-- A fold that either keeps the accumulator or pushes one element related to
the previous last element preserves `Chain'`. -/
theorem foldl_chain_push {α : Type} (P : ℚ → ℚ → Prop) (g : List ℚ → α → List ℚ)
    (hg : ∀ acc c, g acc c = acc ∨ ∃ t, g acc c = acc ++ [t] ∧
      ∀ last ∈ acc.getLast?, P last t) :
    ∀ (l : List α) (acc : List ℚ), acc.Chain' P → (l.foldl g acc).Chain' P := by
  intro l
  induction l with
  | nil => intro acc h; exact h
  | cons a t ih =>
    intro acc h
    rw [List.foldl_cons]
    refine ih _ ?_
    rcases hg acc a with h1 | ⟨x, h2, h3⟩
    · rw [h1]; exact h
    · rw [h2, List.chain'_append]
      refine ⟨h, List.chain'_singleton x, fun y hy z hz => ?_⟩
      simp at hz
      subst hz
      exact h3 y hy

/-- Consecutive onsets accepted by `detectOnsets` are at least `minInterval`
apart: the guard discards any candidate closer than that to the last accepted
onset. -/
theorem detectOnsets_spacing (energy : List ℝ) (frameTimes : List ℚ)
    (threshold : ℝ) (minInterval : ℚ) :
    (detectOnsets energy frameTimes threshold minInterval).Chain'
      (fun a b => minInterval ≤ b - a) := by
  unfold detectOnsets
  refine foldl_chain_push _ _ ?_ _ [] List.chain'_nil
  intro acc i
  dsimp only
  split
  · cases hlast : acc.getLast? with
    | none =>
      right
      refine ⟨frameTimes.getD i 0, rfl, ?_⟩
      intro y hy
      simp at hy
    | some last =>
      dsimp only
      split
      · rename_i hge
        right
        refine ⟨frameTimes.getD i 0, rfl, ?_⟩
        intro y hy
        simp at hy
        subst hy
        linarith [hge]
      · left; rfl
  · left; rfl

/-- A `Chain'` with spacing at least `δ > 0` gives a strictly increasing
list. -/
theorem chain_spacing_pairwise (l : List ℚ) (δ : ℚ) (hδ : 0 < δ)
    (h : l.Chain' (fun a b => δ ≤ b - a)) : l.Pairwise (· < ·) := by
  have hlt : l.Chain' (· < ·) := h.imp (fun a b hab => by linarith)
  exact List.chain'_iff_pairwise.mp hlt

/-- C4: each drum-onset array returned by `analyzeDrums` is strictly
increasing, with consecutive onsets no closer than the band's minimum
spacing (kick 0.15 s, snare 0.12 s, hi-hat 0.05 s). -/
theorem analyzeDrums_onset_invariants (audioData : List ℝ) (sampleRate : ℚ)
    (beatTimes : List ℚ) :
    ((analyzeDrums audioData sampleRate beatTimes).kickTimes.Pairwise (· < ·) ∧
      (analyzeDrums audioData sampleRate beatTimes).kickTimes.Chain'
        (fun a b => 3/20 ≤ b - a)) ∧
    ((analyzeDrums audioData sampleRate beatTimes).snareTimes.Pairwise (· < ·) ∧
      (analyzeDrums audioData sampleRate beatTimes).snareTimes.Chain'
        (fun a b => 3/25 ≤ b - a)) ∧
    ((analyzeDrums audioData sampleRate beatTimes).hihatTimes.Pairwise (· < ·) ∧
      (analyzeDrums audioData sampleRate beatTimes).hihatTimes.Chain'
        (fun a b => 1/20 ≤ b - a)) := by
  simp only [analyzeDrums]
  split
  · refine ⟨⟨?_, ?_⟩, ⟨?_, ?_⟩, ?_, ?_⟩ <;> simp
  · dsimp only
    refine ⟨⟨?_, detectOnsets_spacing _ _ _ _⟩,
      ⟨?_, detectOnsets_spacing _ _ _ _⟩,
      ?_, detectOnsets_spacing _ _ _ _⟩
    · exact chain_spacing_pairwise _ (3/20) (by norm_num)
        (detectOnsets_spacing _ _ _ _)
    · exact chain_spacing_pairwise _ (3/25) (by norm_num)
        (detectOnsets_spacing _ _ _ _)
    · exact chain_spacing_pairwise _ (1/20) (by norm_num)
        (detectOnsets_spacing _ _ _ _)

/-- Telescoping: the sum of consecutive differences of a list is its last
element minus its first. -/
theorem zipWith_sub_tail_sum : ∀ (l : List ℚ),
    (List.zipWith (fun a b => b - a) l l.tail).sum = l.getLastD 0 - l.headI := by
  intro l
  induction l with
  | nil => simp; rfl
  | cons a t ih =>
    cases t with
    | nil => simp
    | cons b t' =>
      simp only [List.tail_cons] at ih ⊢
      rw [List.zipWith_cons_cons, List.sum_cons, ih]
      rw [List.getLastD_eq_getLast?, List.getLastD_eq_getLast?,
        List.getLast?_cons_cons]
      show b - a + ((b :: t').getLast?.getD 0 - b) = (b :: t').getLast?.getD 0 - a
      ring

/-- The frame count `⌊(len - 2048)/512⌋` is nonpositive exactly when the
waveform has fewer than `2048 + 512` samples. -/
theorem numFrames_nonpos_iff (len : ℕ) :
    ⌊((len : ℚ) - 2048) / 512⌋ ≤ 0 ↔ len < 2560 := by
  rw [Int.floor_le_iff]
  constructor
  · intro h
    by_contra hlen
    push_neg at hlen
    have hq : (2560 : ℚ) ≤ (len : ℚ) := by exact_mod_cast hlen
    have : (1 : ℚ) ≤ ((len : ℚ) - 2048) / 512 := by
      rw [le_div_iff₀ (by norm_num)]
      linarith
    push_cast at h
    linarith
  · intro h
    have hq : (len : ℚ) < 2560 := by exact_mod_cast h
    push_cast
    rw [div_lt_iff₀ (by norm_num)]
    linarith

/-- C8 (amended): `analyzeDrums` returns `patternLength = meanInterBeatInterval
× 16` only when the waveform admits at least one full analysis frame
(`length ≥ 2560 = 2048 + 512`) *and* at least 2 beats are supplied; in every
other case `patternLength = 0`; and any waveform shorter than `2560` samples
(in particular shorter than one 2048-sample frame) yields the all-empty
pattern without running the FFT. -/
theorem analyzeDrums_patternLength_spec (audioData : List ℝ) (sampleRate : ℚ)
    (beatTimes : List ℚ) :
    ((analyzeDrums audioData sampleRate beatTimes).patternLength =
      (if 2560 ≤ audioData.length ∧ 2 ≤ beatTimes.length then
        ((List.zipWith (fun a b => b - a) beatTimes beatTimes.tail).sum /
          ((beatTimes.length : ℚ) - 1)) * 16
      else 0)) ∧
    (audioData.length < 2560 →
      analyzeDrums audioData sampleRate beatTimes = ⟨[], [], [], 0⟩) := by
  have hiff := numFrames_nonpos_iff audioData.length
  constructor
  · simp only [analyzeDrums]
    split
    · rename_i hle
      have hshort : audioData.length < 2560 := hiff.mp hle
      rw [if_neg (by omega)]
    · rename_i hpos
      push_neg at hpos
      have hlong : 2560 ≤ audioData.length := by
        by_contra hc
        push_neg at hc
        have := hiff.mpr hc
        omega
      dsimp only
      rw [zipWith_sub_tail_sum]
      by_cases hb : 2 ≤ beatTimes.length
      · rw [if_pos hb, if_pos ⟨hlong, hb⟩]
      · rw [if_neg hb, if_neg (by tauto)]
  · intro hshort
    simp only [analyzeDrums]
    rw [if_pos (hiff.mpr hshort)]

/-- C8 counterexample: the empty waveform with the two beats `[0, 1]` (mean
inter-beat interval `1`) takes the early return, so `patternLength` is `0`,
not `1 × 16` as the unconditional first half of the claim demands. -/
theorem analyzeDrums_empty_patternLength :
    (analyzeDrums ([] : List ℝ) 44100 [0, 1]).patternLength = 0 ∧
      (analyzeDrums ([] : List ℝ) 44100 [0, 1]).patternLength ≠ 1 * 16 := by
  have h : (analyzeDrums ([] : List ℝ) 44100 [0, 1]).patternLength = 0 := by
    simp only [analyzeDrums]
    rw [if_pos ((numFrames_nonpos_iff ([] : List ℝ).length).mpr (by simp))]
  refine ⟨h, ?_⟩
  rw [h]
  norm_num

/-- C8 witness: the amended theorem's short-waveform clause applied to the
empty waveform. -/
theorem analyzeDrums_patternLength_spec_witness :
    ([] : List ℝ).length < 2560 ∧
      analyzeDrums ([] : List ℝ) 44100 [0, 1] = ⟨[], [], [], 0⟩ :=
  ⟨by simp, (analyzeDrums_patternLength_spec [] 44100 [0, 1]).2 (by simp)⟩

/-- Reading a list of nonnegative reals through `getD` with default `0` is nonnegative. -/
theorem getD_nonneg (l : List ℝ) (h : ∀ x ∈ l, 0 ≤ x) (i : ℕ) :
    0 ≤ l.getD i 0 := by
  rw [List.getD_eq_getElem?_getD]
  cases he : l[i]? with
  | none => simp
  | some x =>
    simp only [Option.getD_some]
    exact h x (List.getElem?_mem he)

/-- Reading an all-zero list through `getD` with default `0` gives zero. -/
theorem getD_eq_zero (l : List ℝ) (h : ∀ x ∈ l, x = 0) (i : ℕ) :
    l.getD i 0 = 0 := by
  rw [List.getD_eq_getElem?_getD]
  cases he : l[i]? with
  | none => simp
  | some x =>
    simp only [Option.getD_some]
    exact h x (List.getElem?_mem he)

/-- An in-bounds `getD` entry is a member of the list. -/
theorem getD_mem_of_lt (l : List ℝ) (i : ℕ) (h : i < l.length) :
    l.getD i 0 ∈ l := by
  rw [List.getD_eq_getElem?_getD, List.getElem?_eq_getElem h]
  exact List.getElem_mem h

/-- Reading through `getD` on a mapped `range` list evaluates the function. -/
theorem getD_map_range (m : ℕ) (f : ℕ → ℝ) (i : ℕ) (h : i < m) :
    ((List.range m).map f).getD i 0 = f i := by
  rw [List.getD_eq_getElem?_getD, List.getElem?_map, List.getElem?_range h]
  rfl

/-- A sum of nonnegative reals containing a positive member is positive. -/
theorem sum_pos_of_mem (l : List ℝ) (hnn : ∀ x ∈ l, 0 ≤ x) (x : ℝ)
    (hx : x ∈ l) (hpos : 0 < x) : 0 < l.sum := by
  induction l with
  | nil => exact absurd hx (List.not_mem_nil x)
  | cons a t ih =>
    rw [List.sum_cons]
    rcases List.mem_cons.mp hx with rfl | hxt
    · have ht : 0 ≤ t.sum :=
        List.sum_nonneg (fun y hy => hnn y (List.mem_cons_of_mem _ hy))
      linarith
    · have ha : 0 ≤ a := hnn _ (List.mem_cons_self _ t)
      have := ih (fun y hy => hnn y (List.mem_cons_of_mem _ hy)) hxt
      linarith

/-- The initial value bounds a `foldl max` from below. -/
theorem le_foldl_max_init : ∀ (l : List ℝ) (a : ℝ), a ≤ l.foldl max a := by
  intro l
  induction l with
  | nil => intro a; exact le_refl a
  | cons x t ih =>
    intro a
    rw [List.foldl_cons]
    exact le_trans (le_max_left a x) (ih (max a x))

/-- Every member bounds a `foldl max` from below. -/
theorem le_foldl_max_mem : ∀ (l : List ℝ) (a x : ℝ), x ∈ l → x ≤ l.foldl max a := by
  intro l
  induction l with
  | nil => intro a x hx; exact absurd hx (List.not_mem_nil x)
  | cons y t ih =>
    intro a x hx
    rw [List.foldl_cons]
    rcases List.mem_cons.mp hx with rfl | hxt
    · exact le_trans (le_max_right a x) (le_foldl_max_init t (max a x))
    · exact ih (max a y) x hxt

/-- A `foldl max` is either the initial value or a member of the list. -/
theorem foldl_max_eq_or_mem : ∀ (l : List ℝ) (a : ℝ),
    l.foldl max a = a ∨ l.foldl max a ∈ l := by
  intro l
  induction l with
  | nil => intro a; exact Or.inl rfl
  | cons x t ih =>
    intro a
    rw [List.foldl_cons]
    rcases ih (max a x) with h | h
    · rw [h]
      rcases le_total a x with hax | hax
      · exact Or.inr (by rw [max_eq_right hax]; exact List.mem_cons_self x t)
      · exact Or.inl (max_eq_left hax)
    · exact Or.inr (List.mem_cons_of_mem x h)

/-- The normalisation step of `analyzeEnergy` keeps every value in `[0, 1]`. -/
theorem normalize_bounds (smoothed : List ℝ) (hnn : ∀ x ∈ smoothed, 0 ≤ x) :
    ∀ v ∈ (if 0 < smoothed.foldl max 0 then
        smoothed.map (fun x => x / smoothed.foldl max 0)
      else List.replicate smoothed.length 0), 0 ≤ v ∧ v ≤ 1 := by
  intro v hv
  split at hv
  · rename_i hmax
    obtain ⟨x, hx, rfl⟩ := List.mem_map.mp hv
    constructor
    · exact div_nonneg (hnn x hx) (le_of_lt hmax)
    · rw [div_le_one hmax]
      exact le_foldl_max_mem smoothed 0 x hx
  · rw [List.eq_of_mem_replicate hv]
    norm_num

/-- The normalisation step of `analyzeEnergy` sends an all-zero smoothed
curve to an all-zero envelope. -/
theorem normalize_zero (smoothed : List ℝ) (hz : ∀ x ∈ smoothed, x = 0) :
    ∀ v ∈ (if 0 < smoothed.foldl max 0 then
        smoothed.map (fun x => x / smoothed.foldl max 0)
      else List.replicate smoothed.length 0), v = 0 := by
  have hmax : smoothed.foldl max 0 = 0 := by
    rcases foldl_max_eq_or_mem smoothed 0 with h | h
    · exact h
    · exact hz _ h
  intro v hv
  rw [if_neg (by rw [hmax]; exact lt_irrefl 0)] at hv
  exact List.eq_of_mem_replicate hv

/-- If the smoothed curve has a positive entry, the normalised envelope
attains the value `1`. -/
theorem normalize_one (smoothed : List ℝ) (hnn : ∀ x ∈ smoothed, 0 ≤ x)
    (hpos : ∃ x ∈ smoothed, 0 < x) :
    ∃ v ∈ (if 0 < smoothed.foldl max 0 then
        smoothed.map (fun x => x / smoothed.foldl max 0)
      else List.replicate smoothed.length 0), v = 1 := by
  obtain ⟨x, hx, hxpos⟩ := hpos
  have hmax : 0 < smoothed.foldl max 0 :=
    lt_of_lt_of_le hxpos (le_foldl_max_mem smoothed 0 x hx)
  rw [if_pos hmax]
  have hmem : smoothed.foldl max 0 ∈ smoothed := by
    rcases foldl_max_eq_or_mem smoothed 0 with h | h
    · rw [h] at hmax; exact absurd hmax (lt_irrefl 0)
    · exact h
  exact ⟨_, List.mem_map_of_mem _ hmem, div_self (ne_of_gt hmax)⟩

/-- RMS values are nonnegative. -/
theorem calculateRMS_nonneg (samples : List ℝ) (s e : ℕ) :
    0 ≤ calculateRMS samples s e := by
  simp only [calculateRMS]
  split
  · exact le_refl 0
  · exact Real.sqrt_nonneg _

/-- RMS of an all-zero signal is zero. -/
theorem calculateRMS_zero (samples : List ℝ) (h : ∀ x ∈ samples, x = 0)
    (s e : ℕ) : calculateRMS samples s e = 0 := by
  simp only [calculateRMS]
  split
  · rfl
  · have hsum : ((List.range (e - s)).map
        (fun i => (samples.getD (s + i) 0) ^ 2)).sum = 0 := by
      rw [sum_map_range_const (e - s) _ (0 : ℝ)
        (fun j _ => by rw [getD_eq_zero samples h]; ring)]
      ring
    rw [hsum]
    rw [zero_div, Real.sqrt_zero]

/-- RMS of a window containing a nonzero sample is positive. -/
theorem calculateRMS_pos (samples : List ℝ) (s e j : ℕ) (hj1 : s ≤ j)
    (hj2 : j < e) (hne : samples.getD j 0 ≠ 0) :
    0 < calculateRMS samples s e := by
  unfold calculateRMS
  dsimp only
  rw [if_neg (by omega : ¬ e - s = 0)]
  apply Real.sqrt_pos.mpr
  apply div_pos
  · refine sum_pos_of_mem _ ?_ ((samples.getD j 0) ^ 2) ?_ ?_
    · intro y hy
      obtain ⟨i, _, rfl⟩ := List.mem_map.mp hy
      exact sq_nonneg _
    · refine List.mem_map.mpr ⟨j - s, ?_, ?_⟩
      · rw [List.mem_range]; omega
      · rw [show s + (j - s) = j from by omega]
    · exact (sq_nonneg _).lt_of_ne (Ne.symm (pow_ne_zero 2 hne))
  · have : 0 < e - s := by omega
    exact_mod_cast this

/-- The smoothed curve has the same length as its input. -/
theorem smoothEnergyCurve_length (curve : List ℝ) (w : ℕ) :
    (smoothEnergyCurve curve w).length = curve.length := by
  unfold smoothEnergyCurve
  simp

/-- Smoothing preserves nonnegativity. -/
theorem smoothEnergyCurve_nonneg (curve : List ℝ) (w : ℕ)
    (h : ∀ x ∈ curve, 0 ≤ x) :
    ∀ y ∈ smoothEnergyCurve curve w, 0 ≤ y := by
  intro y hy
  unfold smoothEnergyCurve at hy
  simp only [List.mem_map] at hy
  obtain ⟨i, _, rfl⟩ := hy
  apply div_nonneg
  · exact List.sum_nonneg (fun z hz => by
      obtain ⟨jj, _, rfl⟩ := List.mem_map.mp hz
      exact getD_nonneg curve h _)
  · positivity

/-- Smoothing an all-zero curve gives an all-zero curve. -/
theorem smoothEnergyCurve_zero (curve : List ℝ) (w : ℕ)
    (h : ∀ x ∈ curve, x = 0) :
    ∀ y ∈ smoothEnergyCurve curve w, y = 0 := by
  intro y hy
  unfold smoothEnergyCurve at hy
  simp only [List.mem_map] at hy
  obtain ⟨i, _, rfl⟩ := hy
  rw [sum_map_range_const _ _ (0 : ℝ) (fun j _ => getD_eq_zero curve h _)]
  simp

/-- A positive entry of the input curve gives a positive entry of the
smoothed curve at the same index (its own window always contains it). -/
theorem smoothEnergyCurve_pos_at (curve : List ℝ) (w i : ℕ)
    (hi : i < curve.length) (hnn : ∀ x ∈ curve, 0 ≤ x)
    (hpos : 0 < curve.getD i 0) :
    0 < (smoothEnergyCurve curve w).getD i 0 := by
  unfold smoothEnergyCurve
  rw [getD_map_range curve.length _ i hi]
  dsimp only
  have hlo : i - w / 2 ≤ i := Nat.sub_le i (w / 2)
  have hhi : i < min curve.length (i + w / 2 + 1) := by omega
  apply div_pos
  · refine sum_pos_of_mem _ ?_ (curve.getD i 0) ?_ hpos
    · intro y hy
      obtain ⟨jj, _, rfl⟩ := List.mem_map.mp hy
      exact getD_nonneg curve hnn _
    · refine List.mem_map.mpr ⟨i - (i - w / 2), ?_, ?_⟩
      · rw [List.mem_range]; omega
      · rw [show i - w / 2 + (i - (i - w / 2)) = i from by omega]
  · have : 0 < min curve.length (i + w / 2 + 1) - (i - w / 2) := by omega
    exact_mod_cast this

/-- C3 (amended): at a sample rate that is a positive multiple of 10 (so the
10 Hz analysis windows tile the waveform), every envelope value lies in
`[0,1]`, a silent input gives the all-zero envelope, and a non-silent input
gives an envelope attaining exactly `1`. -/
theorem analyzeEnergy_normalized (audioData : List ℝ) (k : ℕ) (hk : 0 < k) :
    (∀ v ∈ analyzeEnergy audioData (10 * k), 0 ≤ v ∧ v ≤ 1) ∧
      ((∀ s ∈ audioData, s = 0) →
        ∀ v ∈ analyzeEnergy audioData (10 * k), v = 0) ∧
      ((∃ s ∈ audioData, s ≠ 0) →
        ∃ v ∈ analyzeEnergy audioData (10 * k), v = 1) := by
  have hws : (⌊(10 * (k : ℚ)) / 10⌋).toNat = k := by
    rw [show (10 * (k : ℚ)) / 10 = (k : ℚ) from by field_simp]
    rw [Int.floor_natCast]
    exact Int.toNat_natCast k
  simp only [analyzeEnergy, hws]
  set N := (⌈(audioData.length : ℚ) / (10 * (k : ℚ)) * 10⌉).toNat with hN
  set raw := (List.range N).map (fun i =>
    calculateRMS audioData (i * k) (min (i * k + k) audioData.length)) with hraw
  have hraw_nonneg : ∀ x ∈ raw, 0 ≤ x := by
    intro x hx
    rw [hraw] at hx
    obtain ⟨i, _, rfl⟩ := List.mem_map.mp hx
    exact calculateRMS_nonneg _ _ _
  have hsm_nonneg : ∀ x ∈ smoothEnergyCurve raw 5, 0 ≤ x :=
    smoothEnergyCurve_nonneg raw 5 hraw_nonneg
  refine ⟨normalize_bounds _ hsm_nonneg, ?_, ?_⟩
  · intro hsil
    refine normalize_zero _ ?_
    refine smoothEnergyCurve_zero raw 5 ?_
    intro x hx
    rw [hraw] at hx
    obtain ⟨i, _, rfl⟩ := List.mem_map.mp hx
    exact calculateRMS_zero audioData hsil _ _
  · rintro ⟨s0, hs0mem, hs0⟩
    refine normalize_one _ hsm_nonneg ?_
    obtain ⟨j, hj, hgetj⟩ : ∃ j, j < audioData.length ∧ audioData.getD j 0 ≠ 0 := by
      obtain ⟨i, hi, hieq⟩ := List.mem_iff_getElem.mp hs0mem
      refine ⟨i, hi, ?_⟩
      rw [List.getD_eq_getElem?_getD, List.getElem?_eq_getElem hi]
      rw [Option.getD_some, hieq]
      exact hs0
    have hkq : (0 : ℚ) < (k : ℚ) := by exact_mod_cast hk
    have hik : j / k * k ≤ j := Nat.div_mul_le_self j k
    have hjk : j < j / k * k + k := Nat.lt_div_mul_add hk
    have hi0 : j / k * k < audioData.length := lt_of_le_of_lt hik hj
    have hi0N : j / k < N := by
      have hceil : ((j / k : ℕ) : ℤ) < ⌈(audioData.length : ℚ) / (10 * (k : ℚ)) * 10⌉ := by
        rw [Int.lt_ceil]
        have heq : (audioData.length : ℚ) / (10 * (k : ℚ)) * 10 =
            (audioData.length : ℚ) / (k : ℚ) := by
          field_simp
          ring
        rw [heq]
        rw [lt_div_iff₀ hkq]
        push_cast
        exact_mod_cast hi0
      rw [hN]
      exact Int.lt_toNat.mpr hceil
    have hrawlen : raw.length = N := by rw [hraw]; simp
    have hrawpos : 0 < raw.getD (j / k) 0 := by
      rw [hraw, getD_map_range N _ _ hi0N]
      refine calculateRMS_pos audioData (j / k * k) (min (j / k * k + k) audioData.length)
        j hik ?_ hgetj
      omega
    refine ⟨(smoothEnergyCurve raw 5).getD (j / k) 0, ?_, ?_⟩
    · apply getD_mem_of_lt
      rw [smoothEnergyCurve_length, hrawlen]
      exact hi0N
    · exact smoothEnergyCurve_pos_at raw 5 (j / k) (by rw [hrawlen]; exact hi0N)
        hraw_nonneg hrawpos

/-- At 19 Hz the window size is `⌊19/10⌋ = 1` sample while the envelope has
`⌈30/19⌉ = 2` entries, so only samples 0 and 1 of `[0, 0, 1]` are analysed:
the envelope is all-zero although the input is not silent. -/
theorem analyzeEnergy_19 : analyzeEnergy [(0 : ℝ), 0, 1] 19 = [0, 0] := by
  have hr0 : calculateRMS [(0 : ℝ), 0, 1] 0 1 = 0 := by
    simp only [calculateRMS]
    rw [if_neg (by norm_num : ¬ (1 - 0 : ℕ) = 0)]
    rw [show List.range (1 - 0) = [0] from rfl]
    simp only [List.map_cons, List.map_nil, List.sum_cons, List.sum_nil]
    rw [show ([(0 : ℝ), 0, 1]).getD (0 + 0) 0 = 0 from rfl]
    rw [show ((0 : ℝ) ^ 2 + 0) / ((1 - 0 : ℕ) : ℝ) = 0 from by norm_num]
    exact Real.sqrt_zero
  have hr1 : calculateRMS [(0 : ℝ), 0, 1] 1 2 = 0 := by
    simp only [calculateRMS]
    rw [if_neg (by norm_num : ¬ (2 - 1 : ℕ) = 0)]
    rw [show List.range (2 - 1) = [0] from rfl]
    simp only [List.map_cons, List.map_nil, List.sum_cons, List.sum_nil]
    rw [show ([(0 : ℝ), 0, 1]).getD (1 + 0) 0 = 0 from rfl]
    rw [show ((0 : ℝ) ^ 2 + 0) / ((2 - 1 : ℕ) : ℝ) = 0 from by norm_num]
    exact Real.sqrt_zero
  have hout : (⌈(([(0 : ℝ), 0, 1].length : ℚ)) / 19 * 10⌉).toNat = 2 := by
    rw [show (([(0 : ℝ), 0, 1].length : ℚ)) / 19 * 10 = 30 / 19 from by
      norm_num]
    rw [show ⌈(30 / 19 : ℚ)⌉ = 2 from by rw [Int.ceil_eq_iff] <;> norm_num]
    rfl
  have hws : (⌊(19 : ℚ) / 10⌋).toNat = 1 := by
    rw [show ⌊(19 : ℚ) / 10⌋ = 1 from by norm_num]
    rfl
  simp only [analyzeEnergy, hout, hws]
  set raw := (List.range 2).map (fun i =>
    calculateRMS [(0 : ℝ), 0, 1] (i * 1)
      (min (i * 1 + 1) ([(0 : ℝ), 0, 1].length))) with hraw
  have hraw_zero : ∀ x ∈ raw, x = 0 := by
    intro x hx
    rw [hraw] at hx
    obtain ⟨i, hi, rfl⟩ := List.mem_map.mp hx
    rw [List.mem_range] at hi
    interval_cases i
    · exact hr0
    · exact hr1
  have hsm_zero : ∀ y ∈ smoothEnergyCurve raw 5, y = 0 :=
    smoothEnergyCurve_zero _ _ hraw_zero
  have hmax : (smoothEnergyCurve raw 5).foldl max 0 = 0 := by
    rcases foldl_max_eq_or_mem (smoothEnergyCurve raw 5) 0 with h | h
    · exact h
    · exact hsm_zero _ h
  rw [if_neg (by rw [hmax]; exact lt_irrefl 0)]
  rw [smoothEnergyCurve_length]
  rw [show raw.length = 2 from by rw [hraw]; simp]
  rfl

/-- C3 counterexample: at the (positive) sample rate 19 Hz and waveform
`[0, 0, 1]`, the windows (1 sample each, 2 of them) do not cover the nonzero
sample: all envelope values are `0` although the input is not silent, and no
envelope value equals `1`. -/
theorem analyzeEnergy_claim_false :
    (0 : ℚ) < 19 ∧
      ¬ ((∀ v ∈ analyzeEnergy [(0 : ℝ), 0, 1] 19, 0 ≤ v ∧ v ≤ 1) ∧
        ((∀ s ∈ ([(0 : ℝ), 0, 1] : List ℝ), s = 0) ∨
          ∃ v ∈ analyzeEnergy [(0 : ℝ), 0, 1] 19, v = 1)) := by
  refine ⟨by norm_num, ?_⟩
  rintro ⟨-, hsil | ⟨v, hv, hv1⟩⟩
  · have := hsil 1 (by simp)
    norm_num at this
  · rw [analyzeEnergy_19] at hv
    simp at hv
    rw [hv] at hv1
    norm_num at hv1

/-- C3 witness: the amended theorem applied to the one-sample waveform `[1]`
at 10 Hz (`k = 1`); the envelope attains `1`. -/
theorem analyzeEnergy_normalized_witness :
    0 < 1 ∧ ∃ v ∈ analyzeEnergy [(1 : ℝ)] (10 * (1 : ℕ)), v = 1 :=
  ⟨by norm_num,
    (analyzeEnergy_normalized [(1 : ℝ)] 1 (by norm_num)).2.2
      ⟨1, by simp, by norm_num⟩⟩

end BeatSync
